import Mathlib

/-!
Shallow embedding of `morgana/utils.py` (tensor-manipulation helpers of a
speech-synthesis training pipeline) and proofs of its specification's claims.

Tensors are modelled as nested lists of integers:
* a sequence batch of shape `[batch, step, feature]` is a
  `List (List (List Int))`;
* a repetition batch of shape `[batch, step]` is a `List (List Int)`
  (the source reshapes a trailing singleton axis away, so the 2-axis form
  is the one the algorithm consumes);
* strings are modelled as lists of character code points (`List Nat`),
  so Python's `ord`/`chr` become the identity on codes.

Fallible operations (negative repeat counts rejected by `np.repeat`,
`torch.max` over an empty batch, `chr` of a negative int8 code, a string
longer than the requested width overflowing the numpy row assignment,
a failed `assert`) return `Option`, with `none` standing for the raised
exception propagating to the caller.
-/

namespace Morgana

/-! ## upsample_to_repetitions -/

/-- `np.repeat(np.arange max_seq_len, reps)`: index `t` repeated `reps[t]`
times, in order.  The caller guarantees `reps.length = max_seq_len` and
non-negative entries (otherwise `np.repeat` raises, which the caller
models as `none`). -/
def npRepeatArange (max_seq_len : Nat) (reps : List Int) : List Nat :=
  ((List.range max_seq_len).zip reps).flatMap fun p => List.replicate p.2.toNat p.1

/-- One zero-valued feature vector: a row of the `padder` frame
`torch.zeros((batch_size, 1, feat_dim))`. -/
def zeroRow (feat_dim : Nat) : List Int :=
  List.replicate feat_dim 0

/-- Advanced-indexing lookup along the step axis with Python's
negative-index wrap-around (`-1` selects the last frame). -/
def torchIndex (frames : List (List Int)) (i : Int) : List Int :=
  frames.getD (if i < 0 then i + frames.length else i).toNat []

/-- One batch row of `upsample_to_repetitions`: the row of
`sequence_feature_with_padder[batch_idxs, repeated_idxs]` for this batch
item.  `repeated_idxs` holds `np.repeat(np.arange max_seq_len, rrow)` in
its first `repeated_len` positions and the sentinel `-1` (pointing at the
appended zero frame) everywhere after. -/
def upsampleRow (max_seq_len feat_dim max_repeated_len : Nat)
    (srow : List (List Int)) (rrow : List Int) : List (List Int) :=
  let spad := srow ++ [zeroRow feat_dim]
  let filled := (npRepeatArange max_seq_len rrow).map Int.ofNat
  let idxs := filled ++ List.replicate (max_repeated_len - filled.length) (-1)
  idxs.map (torchIndex spad)

/-- `max_repeated_len = torch.max(torch.sum(repeats, dim=1)).item()`:
the largest per-row repeat sum (as a `Nat`; the sums are non-negative on
the domain where the function returns normally). -/
def maxRepeatedLen (repeats : List (List Int)) : Nat :=
  ((repeats.map List.sum).map Int.toNat).foldl Nat.max 0

/-- `feat_dim = sequence_feature.shape[2]`. -/
def featDim (sequence_feature : List (List (List Int))) : Nat :=
  ((sequence_feature.headD []).headD []).length

/-- The conditions under which the vectorized computation of
`upsample_to_repetitions` runs without raising: a non-empty batch
(`torch.max` of an empty tensor raises), rectangular tensors of matching
batch and step extents (tensor shape invariants plus `np.repeat`'s
length requirement), and non-negative repeat counts (`np.repeat` raises
`ValueError` on negative repeats). -/
def upsampleValid (sequence_feature : List (List (List Int)))
    (repeats : List (List Int)) : Prop :=
  repeats.length = sequence_feature.length ∧
  (∀ row ∈ sequence_feature,
    row.length = (sequence_feature.headD []).length ∧
    ∀ f ∈ row, f.length = featDim sequence_feature) ∧
  (∀ row ∈ repeats,
    row.length = (sequence_feature.headD []).length ∧ ∀ r ∈ row, 0 ≤ r)

instance (sequence_feature : List (List (List Int))) (repeats : List (List Int)) :
    Decidable (upsampleValid sequence_feature repeats) := by
  unfold upsampleValid; infer_instance

/-- `upsample_to_repetitions(sequence_feature, repeats)`: copies sequence
items according to their repetition counts, padding every row to the
batch's largest repeat sum by gathering from an appended zero frame.
`none` models an exception raised by the underlying numeric library. -/
def upsample_to_repetitions (sequence_feature : List (List (List Int)))
    (repeats : List (List Int)) : Option (List (List (List Int))) :=
  match sequence_feature with
  | [] => none
  | s₀ :: _ =>
    if upsampleValid sequence_feature repeats then
      some (List.zipWith
        (upsampleRow s₀.length (featDim sequence_feature) (maxRepeatedLen repeats))
        sequence_feature repeats)
    else none

/-- Each input step repeated contiguously by its count, in original step
order: the reference expansion against which the gather is compared. -/
def repeatExpand (srow : List (List Int)) (rrow : List Int) : List (List Int) :=
  (srow.zip rrow).flatMap fun p => List.replicate p.2.toNat p.1

/-- Row selection along the batch axis: `l[perm]` in tensor terms.  When
`perm` is a permutation of `0..B-1` this permutes the batch rows. -/
def reindex {α : Type} (perm : List Nat) (l : List α) (d : α) : List α :=
  perm.map fun i => l.getD i d

/-! ## string_to_ascii / ascii_to_string -/

/-- Storage of one character code in a `np.int8` cell: two's-complement
wrap-around into `[-128, 127]`. -/
def int8Wrap (n : Int) : Int :=
  (n + 128) % 256 - 128

/-- `string_to_ascii(strings, max_len)`.  A string is a list of character
code points, so `ord` is the identity on codes.  Each row is the string's
codes stored as `int8`, right-padded with zeros to the fixed width.
`none` models a raised exception: `max(...)` over an empty list when
`max_len` is omitted, or the numpy broadcast error when a string is
longer than the fixed width. -/
def string_to_ascii (strings : List (List Nat)) (max_len : Option Nat) :
    Option (List (List Int)) :=
  match max_len with
  | none =>
    match strings with
    | [] => none
    | _ :: _ =>
      let max_num_chars := (strings.map List.length).foldl Nat.max 0
      some (strings.map fun line =>
        line.map (fun c : Nat => int8Wrap c) ++
          List.replicate (max_num_chars - line.length) 0)
  | some max_num_chars =>
    if ∀ line ∈ strings, line.length ≤ max_num_chars then
      some (strings.map fun line =>
        line.map (fun c : Nat => int8Wrap c) ++
          List.replicate (max_num_chars - line.length) 0)
    else none

/-- `ascii_to_string(ascii)`: maps every code of every row through `chr`
and drops the characters equal to `chr(0)`.  `chr` raises `ValueError`
on a negative code (possible for int8-wrapped non-ASCII input), modelled
as `none`; `chr` is injective on valid codes, so dropping `chr 0`
characters is dropping zero codes. -/
def ascii_to_string (ascii : List (List Int)) : Option (List (List Nat)) :=
  if ∀ codes ∈ ascii, ∀ c ∈ codes, 0 ≤ c then
    some (ascii.map fun codes => (codes.filter (fun c => c ≠ 0)).map Int.toNat)
  else none

/-! ## ExponentialMovingAverage -/

/-- One named parameter of a model: `(name, tensor value, requires_grad)`.
Tensor values are modelled as exact rationals (one scalar per parameter;
the update is element-wise). -/
structure ParamEntry where
  name : String
  value : ℚ
  requires_grad : Bool
  deriving DecidableEq

/-- `ExponentialMovingAverage.__init__`: the shadow registers the names of
the parameters of `self.model` that require gradients; its values alias
the model's tensors without copying. -/
def emaRegisteredNames (selfParams : List ParamEntry) : List String :=
  (selfParams.filter (fun p => p.requires_grad)).map (fun p => p.name)

/-- The in-place update of `_update_param`:
`shadow = shadow - (1 - decay) * (shadow - x)`. -/
def updateParamValue (decay s x : ℚ) : ℚ :=
  s - (1 - decay) * (s - x)

/-- `ExponentialMovingAverage._update_param(name, x)` acting on the shadow
as an association list.  The `assert name in self.shadow` failure is
`none`; on success every entry registered under `name` is updated
in place. -/
def ema_update_param (decay : ℚ) (shadow : List (String × ℚ))
    (name : String) (x : ℚ) : Option (List (String × ℚ)) :=
  if name ∈ shadow.map Prod.fst then
    some (shadow.map fun p =>
      if p.1 = name then (p.1, updateParamValue decay p.2 x) else p)
  else none

/-- One iteration of the loop body of `update_params`: if the current
parameter of `other_model` is registered in the shadow, `_update_param`
rewrites the (aliased) parameter of `self.model` carrying that name;
otherwise nothing happens. -/
def emaUpdateOne (decay : ℚ) (registered : List String)
    (selfParams : List ParamEntry) (op : ParamEntry) : List ParamEntry :=
  if op.name ∈ registered then
    selfParams.map fun p =>
      if p.name = op.name then { p with value := updateParamValue decay p.value op.value }
      else p
  else selfParams

/-- `ExponentialMovingAverage.update_params(other_model)`: folds the loop
body over `other_model.named_parameters()`.  The state is the pair
(parameters of `self.model`, parameters of `other_model`); the shadow
aliases the former, so its updates are updates of `self.model`'s
parameters, and `other_model` is only read. -/
def ema_update_params (decay : ℚ) (selfParams otherParams : List ParamEntry) :
    List ParamEntry × List ParamEntry :=
  (otherParams.foldl (emaUpdateOne decay (emaRegisteredNames selfParams)) selfParams,
   otherParams)

/-- Value lookup among named parameters: the first entry with the given
name. -/
def lookupParam (ps : List ParamEntry) (n : String) : Option ℚ :=
  (ps.find? (fun p => p.name = n)).map (fun p => p.value)

/-! ## Helper lemmas -/

theorem foldl_max_init_le (l : List Nat) : ∀ a, a ≤ l.foldl Nat.max a := by
  induction l with
  | nil => simp
  | cons y ys ih =>
    intro a
    exact le_trans (Nat.le_max_left a y) (ih (Nat.max a y))

theorem foldl_max_mem_le (l : List Nat) : ∀ a, ∀ x ∈ l, x ≤ l.foldl Nat.max a := by
  induction l with
  | nil => simp
  | cons y ys ih =>
    intro a x hx
    rcases List.mem_cons.mp hx with rfl | hx
    · exact le_trans (Nat.le_max_right a x) (foldl_max_init_le ys _)
    · exact ih _ x hx

theorem foldl_max_attained (l : List Nat) :
    ∀ a, l.foldl Nat.max a = a ∨ ∃ x ∈ l, l.foldl Nat.max a = x := by
  induction l with
  | nil => simp
  | cons y ys ih =>
    intro a
    rcases ih (Nat.max a y) with h | ⟨x, hx, hfx⟩
    · rw [List.foldl_cons]
      rcases Nat.le_total a y with hle | hle
      · exact Or.inr ⟨y, List.mem_cons_self .., by rw [h]; exact Nat.max_eq_right hle⟩
      · exact Or.inl (by rw [h]; exact Nat.max_eq_left hle)
    · exact Or.inr ⟨x, List.mem_cons_of_mem _ hx, hfx⟩

theorem zip_append_left_of_le {α β : Type} (l₁ t : List α) (l₂ : List β)
    (h : l₂.length ≤ l₁.length) : (l₁ ++ t).zip l₂ = l₁.zip l₂ := by
  induction l₁ generalizing l₂ with
  | nil =>
    have : l₂ = [] := List.eq_nil_of_length_eq_zero (Nat.le_antisymm h (Nat.zero_le _))
    subst this; simp
  | cons x xs ih =>
    cases l₂ with
    | nil => simp
    | cons y ys =>
      simp only [List.cons_append, List.zip_cons_cons, List.cons.injEq, true_and]
      exact ih ys (by simpa using h)

theorem range'_zip_flatMap_replicate (full : List (List Int)) :
    ∀ (rrow : List Int) (n : Nat), n + rrow.length ≤ full.length →
    ((((List.range' n rrow.length).zip rrow).flatMap fun p =>
        List.replicate p.2.toNat p.1).map fun i => full.getD i []) =
      ((full.drop n).zip rrow).flatMap fun p => List.replicate p.2.toNat p.1 := by
  intro rrow
  induction rrow with
  | nil => simp
  | cons r rs ih =>
    intro n hn
    have hn' : n < full.length := by
      rw [List.length_cons] at hn; omega
    rw [List.length_cons, List.range'_succ, List.zip_cons_cons, List.flatMap_cons,
      List.map_append, List.map_replicate, List.drop_eq_getElem_cons hn',
      List.zip_cons_cons, List.flatMap_cons, List.getD_eq_getElem _ _ hn']
    congr 1
    have := ih (n + 1) (by rw [List.length_cons] at hn; omega)
    rw [this]

theorem npRepeatArange_map_getD (srow : List (List Int)) (rrow : List Int)
    (pad : List Int) (hlen : rrow.length = srow.length) :
    ((npRepeatArange srow.length rrow).map fun i => (srow ++ [pad]).getD i []) =
      repeatExpand srow rrow := by
  rw [npRepeatArange, repeatExpand, List.range_eq_range', ← hlen]
  rw [range'_zip_flatMap_replicate (srow ++ [pad]) rrow 0 (by simp; omega)]
  rw [List.drop_zero, zip_append_left_of_le srow [pad] rrow (le_of_eq hlen)]

theorem sum_toNat_of_nonneg (l : List Int) (h : ∀ r ∈ l, 0 ≤ r) :
    (l.map Int.toNat).sum = l.sum.toNat := by
  induction l with
  | nil => simp
  | cons r rs ih =>
    have hr : 0 ≤ r := h r (List.mem_cons_self ..)
    have hrs : 0 ≤ rs.sum := List.sum_nonneg fun x hx => h x (List.mem_cons_of_mem _ hx)
    simp only [List.map_cons, List.sum_cons]
    rw [ih fun x hx => h x (List.mem_cons_of_mem _ hx), Int.toNat_add hr hrs]

theorem npRepeatArange_length (T : Nat) (rrow : List Int)
    (hlen : rrow.length = T) (hnn : ∀ r ∈ rrow, 0 ≤ r) :
    (npRepeatArange T rrow).length = rrow.sum.toNat := by
  rw [npRepeatArange, List.length_flatMap]
  have hmap : List.map (List.length ∘ fun p : Nat × Int => List.replicate p.2.toNat p.1)
      ((List.range T).zip rrow) = rrow.map Int.toNat := by
    have hfun : (List.length ∘ fun p : Nat × Int => List.replicate p.2.toNat p.1)
        = Int.toNat ∘ Prod.snd := by
      funext p; simp
    rw [hfun, ← List.map_map, List.map_snd_zip _ _ (by rw [List.length_range]; omega)]
  rw [hmap, sum_toNat_of_nonneg rrow hnn]

theorem torchIndex_ofNat (frames : List (List Int)) (i : Nat) :
    torchIndex frames (Int.ofNat i) = frames.getD i [] := by
  have h0 : ¬ (Int.ofNat i < 0) := by
    rw [Int.ofNat_eq_coe]
    exact not_lt.mpr (Int.natCast_nonneg i)
  unfold torchIndex
  rw [if_neg h0]
  simp

theorem torchIndex_neg_one (srow : List (List Int)) (pad : List Int) :
    torchIndex (srow ++ [pad]) (-1) = pad := by
  unfold torchIndex
  rw [if_pos (by omega)]
  have h1 : ((-1 : Int) + ((srow ++ [pad]).length : Int)).toNat = srow.length := by
    simp
  rw [h1, List.getD_eq_getElem?_getD, List.getElem?_append_right (le_refl _)]
  simp

theorem upsampleRow_eq (srow : List (List Int)) (rrow : List Int) (feat_dim maxLen : Nat)
    (hlen : rrow.length = srow.length) (hnn : ∀ r ∈ rrow, 0 ≤ r) :
    upsampleRow srow.length feat_dim maxLen srow rrow =
      repeatExpand srow rrow ++
        List.replicate (maxLen - rrow.sum.toNat) (zeroRow feat_dim) := by
  show (((npRepeatArange srow.length rrow).map Int.ofNat ++
      List.replicate (maxLen - ((npRepeatArange srow.length rrow).map Int.ofNat).length)
        (-1)).map (torchIndex (srow ++ [zeroRow feat_dim]))) = _
  rw [List.map_append, List.map_map, List.map_replicate, List.length_map,
    npRepeatArange_length srow.length rrow hlen hnn, torchIndex_neg_one]
  congr 1
  rw [show torchIndex (srow ++ [zeroRow feat_dim]) ∘ Int.ofNat
      = fun i => (srow ++ [zeroRow feat_dim]).getD i [] from
    funext fun i => torchIndex_ofNat ..]
  exact npRepeatArange_map_getD srow rrow (zeroRow feat_dim) hlen

theorem repeatExpand_length (srow : List (List Int)) (rrow : List Int)
    (hlen : rrow.length = srow.length) (hnn : ∀ r ∈ rrow, 0 ≤ r) :
    (repeatExpand srow rrow).length = rrow.sum.toNat := by
  rw [repeatExpand, List.length_flatMap]
  have hfun : (List.length ∘ fun p : List Int × Int => List.replicate p.2.toNat p.1)
      = Int.toNat ∘ Prod.snd := by
    funext p; simp
  rw [hfun, ← List.map_map, List.map_snd_zip _ _ (le_of_eq hlen),
    sum_toNat_of_nonneg rrow hnn]

theorem mem_repeatExpand {x : List Int} {srow : List (List Int)} {rrow : List Int}
    (hx : x ∈ repeatExpand srow rrow) : x ∈ srow := by
  obtain ⟨⟨a, r⟩, hp, hxr⟩ := List.mem_flatMap.mp hx
  rw [List.eq_of_mem_replicate hxr]
  exact (List.of_mem_zip hp).1

theorem getD_zipWith_of_lt {α β γ : Type} (f : α → β → γ) (l₁ : List α) (l₂ : List β)
    (i : Nat) (h₁ : i < l₁.length) (h₂ : i < l₂.length) (d₁ : α) (d₂ : β) (d₃ : γ) :
    (List.zipWith f l₁ l₂).getD i d₃ = f (l₁.getD i d₁) (l₂.getD i d₂) := by
  rw [List.getD_eq_getElem _ _ (by rw [List.length_zipWith]; exact lt_min h₁ h₂),
    List.getD_eq_getElem _ _ h₁, List.getD_eq_getElem _ _ h₂]
  exact List.getElem_zipWith

theorem upsample_eq_some (seq : List (List (List Int))) (repeats : List (List Int))
    (out : List (List (List Int))) (h : upsample_to_repetitions seq repeats = some out) :
    upsampleValid seq repeats ∧
      out = List.zipWith
        (upsampleRow (seq.headD []).length (featDim seq) (maxRepeatedLen repeats))
        seq repeats := by
  cases seq with
  | nil => simp [upsample_to_repetitions] at h
  | cons s₀ rest =>
    rw [upsample_to_repetitions] at h
    by_cases hv : upsampleValid (s₀ :: rest) repeats
    · rw [if_pos hv] at h
      exact ⟨hv, by injection h with h'; rw [← h']; rfl⟩
    · rw [if_neg hv] at h
      exact absurd h (by simp)

theorem upsample_row_char (seq : List (List (List Int))) (repeats : List (List Int))
    (out : List (List (List Int))) (h : upsample_to_repetitions seq repeats = some out)
    (b : Nat) (hb : b < seq.length) :
    out.getD b [] =
      repeatExpand (seq.getD b []) (repeats.getD b []) ++
        List.replicate (maxRepeatedLen repeats - ((repeats.getD b []).sum).toNat)
          (zeroRow (featDim seq)) := by
  obtain ⟨⟨hblen, hseq, hrep⟩, hout⟩ := upsample_eq_some seq repeats out h
  have hb₂ : b < repeats.length := by omega
  rw [hout, getD_zipWith_of_lt _ _ _ b hb hb₂ [] [] []]
  have hrowmem : seq.getD b [] ∈ seq := by
    rw [List.getD_eq_getElem _ _ hb]; exact List.getElem_mem hb
  have hrmem : repeats.getD b [] ∈ repeats := by
    rw [List.getD_eq_getElem _ _ hb₂]; exact List.getElem_mem hb₂
  obtain ⟨hsl, _⟩ := hseq _ hrowmem
  obtain ⟨hrl, hrnn⟩ := hrep _ hrmem
  rw [← hsl]
  exact upsampleRow_eq _ _ _ _ (hrl.trans hsl.symm) hrnn

theorem foldl_max_zero_attained (l : List Nat) (hl : l ≠ []) :
    ∃ x ∈ l, l.foldl Nat.max 0 = x := by
  rcases foldl_max_attained l 0 with h | h
  · cases l with
    | nil => exact absurd rfl hl
    | cons y ys =>
      refine ⟨y, List.mem_cons_self .., ?_⟩
      have hy := foldl_max_mem_le (y :: ys) 0 y (List.mem_cons_self ..)
      omega
  · exact h

theorem getD_append_right' {α : Type} (l₁ l₂ : List α) (d : α) (j : Nat)
    (h : l₁.length ≤ j) : (l₁ ++ l₂).getD j d = l₂.getD (j - l₁.length) d := by
  rw [List.getD_eq_getElem?_getD, List.getElem?_append_right h,
    ← List.getD_eq_getElem?_getD]

theorem getD_replicate_of_lt {α : Type} (n j : Nat) (a d : α) (h : j < n) :
    (List.replicate n a).getD j d = a := by
  rw [List.getD_eq_getElem _ _ (by simpa using h)]
  exact List.getElem_replicate ..

theorem upsample_eq_of_valid (seq : List (List (List Int))) (repeats : List (List Int))
    (hne : seq ≠ []) (hv : upsampleValid seq repeats) :
    upsample_to_repetitions seq repeats =
      some (List.zipWith
        (upsampleRow (seq.headD []).length (featDim seq) (maxRepeatedLen repeats))
        seq repeats) := by
  cases seq with
  | nil => exact absurd rfl hne
  | cons s₀ rest =>
    rw [upsample_to_repetitions, if_pos hv]
    rfl

theorem sum_toNat_le_maxRepeatedLen (repeats : List (List Int)) (row : List Int)
    (hrow : row ∈ repeats) : row.sum.toNat ≤ maxRepeatedLen repeats :=
  foldl_max_mem_le _ 0 _
    (List.mem_map.mpr ⟨row.sum, List.mem_map.mpr ⟨row, hrow, rfl⟩, rfl⟩)

/-! ## C1, C2, C6, C7: upsample_to_repetitions -/

/-- C1: for every sequence batch and aligned non-negative repeats batch,
`upsample_to_repetitions` returns an output whose row `b`, at positions
`[0, sum(repeats[b,:]))`, equals the input steps of row `b` each repeated
contiguously `repeats[b,t]` times in original step order, and whose
positions at or beyond that sum are zero.  (The witness instantiates the
spec's example: a row with repeats `[2,0,1]` over the 3-step, 1-feature
input `[[5],[7],[9]]` yields `[5,5,9]` followed by zero padding to the
batch's maximum output length.) -/
theorem upsample_row_invariant (seq : List (List (List Int))) (repeats : List (List Int))
    (hne : seq ≠ []) (hv : upsampleValid seq repeats) :
    ∃ out, upsample_to_repetitions seq repeats = some out ∧
      ∀ b < seq.length, out.getD b [] =
        repeatExpand (seq.getD b []) (repeats.getD b []) ++
          List.replicate (maxRepeatedLen repeats - ((repeats.getD b []).sum).toNat)
            (zeroRow (featDim seq)) := by
  refine ⟨_, upsample_eq_of_valid seq repeats hne hv, fun b hb => ?_⟩
  exact upsample_row_char seq repeats _ (upsample_eq_of_valid seq repeats hne hv) b hb

/-- Witness for C1: the spec's concrete example, inside a two-row batch so
that the first row is zero-padded to the batch's maximum length 5.  The
second conjunct evaluates the function on it: the `[2,0,1]` row comes out
as `[5,5,9]` followed by two zero frames. -/
theorem upsample_row_invariant_witness :
    (∃ out, upsample_to_repetitions [[[5],[7],[9]], [[5],[7],[9]]] [[2,0,1],[2,2,1]]
        = some out ∧
      ∀ b < ([[[5],[7],[9]], [[5],[7],[9]]] : List (List (List Int))).length,
        out.getD b [] =
          repeatExpand (([[[5],[7],[9]], [[5],[7],[9]]] : List (List (List Int))).getD b [])
              (([[2,0,1],[2,2,1]] : List (List Int)).getD b []) ++
            List.replicate
              (maxRepeatedLen [[2,0,1],[2,2,1]] -
                ((([[2,0,1],[2,2,1]] : List (List Int)).getD b []).sum).toNat)
              (zeroRow (featDim [[[5],[7],[9]], [[5],[7],[9]]]))) ∧
    upsample_to_repetitions [[[5],[7],[9]], [[5],[7],[9]]] [[2,0,1],[2,2,1]] =
      some [[[5],[5],[9],[0],[0]], [[5],[5],[7],[7],[9]]] :=
  ⟨upsample_row_invariant [[[5],[7],[9]], [[5],[7],[9]]] [[2,0,1],[2,2,1]]
    (by decide) (by decide), by decide⟩

/-- C2: for every valid input, the output of `upsample_to_repetitions` is a
3-axis array of shape `[batch, max_output_length, feature]`, where
`max_output_length` is the maximum over batch rows of the row's repeat sum
(attained by some row, and an upper bound for all rows), and every row's
positions past its own repeat sum are zero frames. -/
theorem upsample_output_shape (seq : List (List (List Int))) (repeats : List (List Int))
    (hne : seq ≠ []) (hv : upsampleValid seq repeats) :
    ∃ out, upsample_to_repetitions seq repeats = some out ∧
      out.length = seq.length ∧
      (∀ row ∈ out, row.length = maxRepeatedLen repeats ∧
        ∀ f ∈ row, f.length = featDim seq) ∧
      (∃ row ∈ repeats, maxRepeatedLen repeats = row.sum.toNat) ∧
      (∀ row ∈ repeats, row.sum.toNat ≤ maxRepeatedLen repeats) ∧
      (∀ b < seq.length, ∀ j, ((repeats.getD b []).sum).toNat ≤ j →
        j < maxRepeatedLen repeats →
        (out.getD b []).getD j [] = zeroRow (featDim seq)) := by
  obtain ⟨hblen, hseq, hrep⟩ := hv
  refine ⟨_, upsample_eq_of_valid seq repeats hne ⟨hblen, hseq, hrep⟩, ?_, ?_, ?_, ?_, ?_⟩
  · rw [List.length_zipWith, hblen, min_self]
  · intro row hrow
    rw [List.mem_iff_getElem] at hrow
    obtain ⟨b, hb, hbrow⟩ := hrow
    have hb' : b < seq.length := by
      rw [List.length_zipWith, hblen, min_self] at hb
      exact hb
    have hbr : b < repeats.length := by omega
    rw [← hbrow, ← List.getD_eq_getElem _ [] hb,
      upsample_row_char seq repeats _
        (upsample_eq_of_valid seq repeats hne ⟨hblen, hseq, hrep⟩) b hb']
    have hsmem : seq.getD b [] ∈ seq := by
      rw [List.getD_eq_getElem _ _ hb']; exact List.getElem_mem hb'
    have hrmem : repeats.getD b [] ∈ repeats := by
      rw [List.getD_eq_getElem _ _ hbr]; exact List.getElem_mem hbr
    obtain ⟨hsl, hsf⟩ := hseq _ hsmem
    obtain ⟨hrl, hrnn⟩ := hrep _ hrmem
    constructor
    · rw [List.length_append, List.length_replicate,
        repeatExpand_length _ _ (hrl.trans hsl.symm) hrnn]
      have := sum_toNat_le_maxRepeatedLen repeats _ hrmem
      omega
    · intro f hf
      rcases List.mem_append.mp hf with hf | hf
      · exact hsf f (mem_repeatExpand hf)
      · rw [List.eq_of_mem_replicate hf, zeroRow, List.length_replicate]
  · have hrne : repeats ≠ [] := by
      intro hnil
      rw [hnil] at hblen
      cases seq with
      | nil => exact hne rfl
      | cons a l => simp at hblen
    have hlne : ((repeats.map List.sum).map Int.toNat) ≠ [] := by
      simp only [ne_eq, List.map_eq_nil_iff]
      exact hrne
    obtain ⟨x, hx, hfold⟩ := foldl_max_zero_attained _ hlne
    obtain ⟨y, hy, hxy⟩ := List.mem_map.mp hx
    obtain ⟨row, hrow, hrowy⟩ := List.mem_map.mp hy
    refine ⟨row, hrow, ?_⟩
    rw [maxRepeatedLen, hfold, ← hxy, ← hrowy]
  · exact fun row hrow => sum_toNat_le_maxRepeatedLen repeats row hrow
  · intro b hb j hj hjlt
    have hbr : b < repeats.length := by omega
    rw [upsample_row_char seq repeats _
      (upsample_eq_of_valid seq repeats hne ⟨hblen, hseq, hrep⟩) b hb]
    have hsmem : seq.getD b [] ∈ seq := by
      rw [List.getD_eq_getElem _ _ hb]; exact List.getElem_mem hb
    have hrmem : repeats.getD b [] ∈ repeats := by
      rw [List.getD_eq_getElem _ _ hbr]; exact List.getElem_mem hbr
    obtain ⟨hsl, _⟩ := hseq _ hsmem
    obtain ⟨hrl, hrnn⟩ := hrep _ hrmem
    have hexplen : (repeatExpand (seq.getD b []) (repeats.getD b [])).length
        = ((repeats.getD b []).sum).toNat :=
      repeatExpand_length _ _ (hrl.trans hsl.symm) hrnn
    rw [getD_append_right' _ _ _ j (by omega), hexplen,
      getD_replicate_of_lt _ _ _ _ (by omega)]

/-- Witness for C2 on the two-row example batch. -/
theorem upsample_output_shape_witness :
    ∃ out, upsample_to_repetitions [[[5],[7],[9]], [[5],[7],[9]]] [[2,0,1],[2,2,1]]
        = some out ∧
      out.length = ([[[5],[7],[9]], [[5],[7],[9]]] : List (List (List Int))).length ∧
      (∀ row ∈ out, row.length = maxRepeatedLen [[2,0,1],[2,2,1]] ∧
        ∀ f ∈ row, f.length = featDim [[[5],[7],[9]], [[5],[7],[9]]]) ∧
      (∃ row ∈ ([[2,0,1],[2,2,1]] : List (List Int)),
        maxRepeatedLen [[2,0,1],[2,2,1]] = row.sum.toNat) ∧
      (∀ row ∈ ([[2,0,1],[2,2,1]] : List (List Int)),
        row.sum.toNat ≤ maxRepeatedLen [[2,0,1],[2,2,1]]) ∧
      (∀ b < ([[[5],[7],[9]], [[5],[7],[9]]] : List (List (List Int))).length,
        ∀ j, ((([[2,0,1],[2,2,1]] : List (List Int)).getD b []).sum).toNat ≤ j →
        j < maxRepeatedLen [[2,0,1],[2,2,1]] →
        (out.getD b []).getD j [] = zeroRow (featDim [[[5],[7],[9]], [[5],[7],[9]]])) :=
  upsample_output_shape [[[5],[7],[9]], [[5],[7],[9]]] [[2,0,1],[2,2,1]]
    (by decide) (by decide)

/-- C6: a batch row whose repeats are all zero (while some other row has a
positive repeat sum) comes out as an all-padding row: `max_output_length`
zero frames. -/
theorem upsample_all_zero_repeats_row (seq : List (List (List Int)))
    (repeats : List (List Int)) (out : List (List (List Int))) (b : Nat)
    (h : upsample_to_repetitions seq repeats = some out) (hb : b < seq.length)
    (hzero : ∀ r ∈ repeats.getD b [], r = 0)
    (_hother : ∃ b' < repeats.length, 0 < (repeats.getD b' []).sum) :
    out.getD b [] = List.replicate (maxRepeatedLen repeats)
      (zeroRow (featDim seq)) := by
  rw [upsample_row_char seq repeats out h b hb]
  have hexp : repeatExpand (seq.getD b []) (repeats.getD b []) = [] := by
    rw [repeatExpand, List.flatMap_eq_nil_iff]
    rintro ⟨a, r⟩ hp
    rw [hzero r (List.of_mem_zip hp).2]
    simp
  have hsum : (repeats.getD b []).sum = 0 := List.sum_eq_zero hzero
  rw [hexp, hsum]
  simp

/-- Witness for C6: the second row has repeats `[0,0,0]` and comes out as
three zero frames (the first row's sum, 3, sets the output width). -/
theorem upsample_all_zero_repeats_row_witness :
    upsample_to_repetitions [[[5],[7],[9]], [[1],[2],[3]]] [[2,0,1],[0,0,0]] =
        some [[[5],[5],[9]], [[0],[0],[0]]] ∧
    ([[[5],[5],[9]], [[0],[0],[0]]] : List (List (List Int))).getD 1 [] =
      List.replicate (maxRepeatedLen [[2,0,1],[0,0,0]])
        (zeroRow (featDim [[[5],[7],[9]], [[1],[2],[3]]])) :=
  ⟨by decide,
   upsample_all_zero_repeats_row [[[5],[7],[9]], [[1],[2],[3]]] [[2,0,1],[0,0,0]]
     [[[5],[5],[9]], [[0],[0],[0]]] 1 (by decide) (by decide) (by decide)
     ⟨0, by decide, by decide⟩⟩

/-- C7: whenever `repeats` contains a negative entry the call fails with an
error raised by the underlying numeric library (`np.repeat` rejects
negative repeat counts), modelled as `none`: the failure propagates and no
normal output is produced. -/
theorem upsample_negative_repeats_fails (seq : List (List (List Int)))
    (repeats : List (List Int)) (row : List Int) (r : Int)
    (hrow : row ∈ repeats) (hr : r ∈ row) (hneg : r < 0) :
    upsample_to_repetitions seq repeats = none := by
  cases seq with
  | nil => rfl
  | cons s₀ rest =>
    have hnv : ¬ upsampleValid (s₀ :: rest) repeats := fun ⟨_, _, hrep⟩ =>
      absurd ((hrep row hrow).2 r hr) (not_le.mpr hneg)
    rw [upsample_to_repetitions, if_neg hnv]

/-- Witness for C7: a single `-1` repeat makes the call fail. -/
theorem upsample_negative_repeats_fails_witness :
    upsample_to_repetitions [[[5],[7],[9]]] [[2,-1,1]] = none :=
  upsample_negative_repeats_fails [[[5],[7],[9]]] [[2,-1,1]] [2,-1,1] (-1)
    (by decide) (by decide) (by decide)

/-! ## C3, C4, C9: the string/ASCII codec pair -/

theorem int8Wrap_eq_self (c : Nat) (h : c ≤ 127) : int8Wrap (c : Int) = (c : Int) := by
  rw [int8Wrap]
  omega

theorem filter_append_replicate_zero (row : List Int) (k : Nat) :
    ((row ++ List.replicate k 0).filter fun c => c ≠ 0) =
      row.filter fun c => c ≠ 0 := by
  rw [List.filter_append]
  have hz : (List.replicate k (0 : Int)).filter (fun c => c ≠ 0) = [] := by
    rw [List.filter_eq_nil_iff]
    intro a ha
    rw [List.eq_of_mem_replicate ha]
    simp
  rw [hz, List.append_nil]

/-- Decoded form of one encoded row, independent of the padded width `k`:
the non-zero codes of the string, in order. -/
theorem codec_row_decoded (s : List Nat) (k : Nat) (h : ∀ c ∈ s, c ≤ 127) :
    ((((s.map fun c : Nat => int8Wrap c) ++ List.replicate k 0).filter
        fun c => c ≠ 0).map Int.toNat) =
      s.filter fun c => c ≠ 0 := by
  rw [filter_append_replicate_zero]
  induction s with
  | nil => rfl
  | cons c cs ih =>
    have hc127 : c ≤ 127 := h c (List.mem_cons_self ..)
    have ih' := ih fun x hx => h x (List.mem_cons_of_mem _ hx)
    simp only [List.map_cons, List.filter_cons, int8Wrap_eq_self c hc127]
    by_cases hc : c = 0
    · subst hc
      simpa using ih'
    · have hcz : (c : Int) ≠ 0 := by exact_mod_cast hc
      simp [hc, hcz]
      simpa using ih'

theorem codec_row_nonneg (s : List Nat) (k : Nat) (h : ∀ c ∈ s, c ≤ 127) :
    ∀ c ∈ (s.map fun c : Nat => int8Wrap c) ++ List.replicate k 0, 0 ≤ c := by
  intro c hc
  rcases List.mem_append.mp hc with hc | hc
  · obtain ⟨a, ha, hac⟩ := List.mem_map.mp hc
    rw [← hac, int8Wrap_eq_self a (h a ha)]
    exact Int.natCast_nonneg a
  · rw [List.eq_of_mem_replicate hc]

/-- C3: for every list of strings of ASCII characters with code points in
`1..127` (no null characters), each no longer than the chosen maximum
length, decoding the encoding returns the original strings unchanged. -/
theorem string_ascii_roundtrip (strings : List (List Nat)) (L : Nat)
    (hascii : ∀ s ∈ strings, ∀ c ∈ s, 1 ≤ c ∧ c ≤ 127)
    (hlen : ∀ s ∈ strings, s.length ≤ L) :
    (string_to_ascii strings (some L)).bind ascii_to_string = some strings := by
  rw [string_to_ascii, if_pos hlen, Option.some_bind, ascii_to_string, if_pos ?nonneg]
  case nonneg =>
    intro codes hcodes
    obtain ⟨s, hs, hsc⟩ := List.mem_map.mp hcodes
    rw [← hsc]
    exact codec_row_nonneg s _ fun c hc => (hascii s hs c hc).2
  rw [List.map_map]
  congr 1
  refine (List.map_congr_left fun s hs => ?_).trans (List.map_id strings)
  show ((((s.map fun c : Nat => int8Wrap c) ++ List.replicate (L - s.length) 0).filter
      fun c => c ≠ 0).map Int.toNat) = s
  rw [codec_row_decoded s _ fun c hc => (hascii s hs c hc).2]
  apply List.filter_eq_self.mpr
  intro a ha
  have h1 := (hascii s hs a ha).1
  simp only [ne_eq, decide_eq_true_eq]
  omega

/-- Witness for C3: encoding `["hi", "a"]` (codes `[104,105]`, `[97]`) at
width 4 and decoding returns the original strings. -/
theorem string_ascii_roundtrip_witness :
    (string_to_ascii [[104,105],[97]] (some 4)).bind ascii_to_string =
      some [[104,105],[97]] :=
  string_ascii_roundtrip [[104,105],[97]] 4 (by decide) (by decide)

/-- C4: decoding is stable under re-encoding at a larger maximum length:
for ASCII strings fitting in width `L₁ ≤ L₂`, the decode of the `L₁`
encoding equals the decode of the `L₂` encoding — the extra zero padding
is stripped identically. -/
theorem string_ascii_padding_stable (strings : List (List Nat)) (L₁ L₂ : Nat)
    (hascii : ∀ s ∈ strings, ∀ c ∈ s, c ≤ 127)
    (hlen : ∀ s ∈ strings, s.length ≤ L₁) (hle : L₁ ≤ L₂) :
    (string_to_ascii strings (some L₁)).bind ascii_to_string =
      (string_to_ascii strings (some L₂)).bind ascii_to_string := by
  have hlen₂ : ∀ s ∈ strings, s.length ≤ L₂ := fun s hs => le_trans (hlen s hs) hle
  have hnn : ∀ (L : Nat), ∀ codes ∈ strings.map fun line =>
      (line.map fun c : Nat => int8Wrap c) ++ List.replicate (L - line.length) 0,
      ∀ c ∈ codes, 0 ≤ c := by
    intro L codes hcodes
    obtain ⟨s, hs, hsc⟩ := List.mem_map.mp hcodes
    rw [← hsc]
    exact codec_row_nonneg s _ fun c hc => hascii s hs c hc
  rw [string_to_ascii, if_pos hlen, Option.some_bind, ascii_to_string, if_pos (hnn L₁),
    string_to_ascii, if_pos hlen₂, Option.some_bind, ascii_to_string, if_pos (hnn L₂)]
  congr 1
  rw [List.map_map, List.map_map]
  apply List.map_congr_left
  intro s hs
  show ((((s.map fun c : Nat => int8Wrap c) ++ List.replicate (L₁ - s.length) 0).filter
      fun c => c ≠ 0).map Int.toNat) =
    ((((s.map fun c : Nat => int8Wrap c) ++ List.replicate (L₂ - s.length) 0).filter
      fun c => c ≠ 0).map Int.toNat)
  rw [codec_row_decoded s _ fun c hc => hascii s hs c hc,
    codec_row_decoded s _ fun c hc => hascii s hs c hc]

/-- Witness for C4: `["hi"]` decoded from width 2 and from width 5
encodings agree. -/
theorem string_ascii_padding_stable_witness :
    (string_to_ascii [[104,105]] (some 2)).bind ascii_to_string =
      (string_to_ascii [[104,105]] (some 5)).bind ascii_to_string :=
  string_ascii_padding_stable [[104,105]] 2 5 (by decide) (by decide) (by decide)

/-- C9: `ascii_to_string` deletes every zero code wherever it occurs, not
only trailing padding: the decode of an encoding is the list of each
string's non-zero codes in order, and whenever some string contains the
null character (code 0) the round-trip does not return the original
strings. -/
theorem ascii_to_string_strips_interior_nulls (strings : List (List Nat)) (L : Nat)
    (hascii : ∀ s ∈ strings, ∀ c ∈ s, c ≤ 127)
    (hlen : ∀ s ∈ strings, s.length ≤ L) :
    (string_to_ascii strings (some L)).bind ascii_to_string =
      some (strings.map fun s => s.filter fun c => c ≠ 0) ∧
    ∀ s ∈ strings, 0 ∈ s →
      (string_to_ascii strings (some L)).bind ascii_to_string ≠ some strings := by
  have hdec : (string_to_ascii strings (some L)).bind ascii_to_string =
      some (strings.map fun s => s.filter fun c => c ≠ 0) := by
    rw [string_to_ascii, if_pos hlen, Option.some_bind, ascii_to_string, if_pos ?nonneg]
    case nonneg =>
      intro codes hcodes
      obtain ⟨s, hs, hsc⟩ := List.mem_map.mp hcodes
      rw [← hsc]
      exact codec_row_nonneg s _ fun c hc => hascii s hs c hc
    rw [List.map_map]
    congr 1
    apply List.map_congr_left
    intro s hs
    show ((((s.map fun c : Nat => int8Wrap c) ++ List.replicate (L - s.length) 0).filter
        fun c => c ≠ 0).map Int.toNat) = s.filter fun c => c ≠ 0
    exact codec_row_decoded s _ fun c hc => hascii s hs c hc
  refine ⟨hdec, ?_⟩
  intro s hs h0 hcontra
  rw [hdec] at hcontra
  injection hcontra with hmap
  obtain ⟨i, hi, hie⟩ := List.mem_iff_getElem.mp hs
  have hgi : (strings.map fun s => s.filter fun c => c ≠ 0)[i]? = strings[i]? := by
    rw [hmap]
  rw [List.getElem?_map, List.getElem?_eq_getElem hi] at hgi
  rw [show Option.map (fun s => s.filter fun c => c ≠ 0) (some strings[i])
      = some (strings[i].filter fun c => c ≠ 0) from rfl] at hgi
  injection hgi with hgi
  rw [hie] at hgi
  exact absurd (List.filter_eq_self.mp hgi 0 h0) (by decide)

/-- Witness for C9: the string with codes `[104,0,105]` decodes to
`[104,105]`: the interior null is deleted and the round-trip fails. -/
theorem ascii_to_string_strips_interior_nulls_witness :
    (string_to_ascii [[104,0,105]] (some 4)).bind ascii_to_string =
      some [[104,105]] ∧
    (string_to_ascii [[104,0,105]] (some 4)).bind ascii_to_string ≠
      some [[104,0,105]] := by
  obtain ⟨h1, h2⟩ := ascii_to_string_strips_interior_nulls [[104,0,105]] 4
    (by decide) (by decide)
  exact ⟨by rw [h1]; decide, h2 [104,0,105] (by decide) (by decide)⟩

/-! ## C8, C10: ExponentialMovingAverage -/

/-- C8: for every parameter name registered in the shadow, every current
value `x` and every decay in `[0,1]`, one `_update_param` step replaces
the shadow value `s` by exactly `decay*s + (1-decay)*x`: the in-place
form `s - (1-decay)*(s-x)` equals that formula under exact arithmetic. -/
theorem ema_update_param_formula (decay : ℚ) (shadow : List (String × ℚ))
    (name : String) (x : ℚ) (_hd₀ : 0 ≤ decay) (_hd₁ : decay ≤ 1)
    (hreg : name ∈ shadow.map Prod.fst) :
    ema_update_param decay shadow name x =
      some (shadow.map fun p =>
        if p.1 = name then (p.1, decay * p.2 + (1 - decay) * x) else p) := by
  rw [ema_update_param, if_pos hreg]
  congr 1
  apply List.map_congr_left
  intro p _
  by_cases h : p.1 = name
  · rw [if_pos h, if_pos h, updateParamValue, Prod.mk.injEq]
    exact ⟨rfl, by ring⟩
  · rw [if_neg h, if_neg h]

/-- Witness for C8: decay `1/2`, shadow value `10`, current value `2`
yields shadow value `6 = (1/2)*10 + (1/2)*2`. -/
theorem ema_update_param_formula_witness :
    ema_update_param (1/2 : ℚ) [("w", 10)] "w" 2 = some [("w", 6)] := by
  rw [ema_update_param_formula (1/2) [("w", 10)] "w" 2 (by norm_num) (by norm_num)
    (by decide)]
  norm_num

theorem lookupParam_map_update (ps : List ParamEntry) (m n : String) (g : ℚ → ℚ)
    (hne : m ≠ n) :
    lookupParam (ps.map fun p =>
      if p.name = m then { p with value := g p.value } else p) n = lookupParam ps n := by
  induction ps with
  | nil => rfl
  | cons p ps ih =>
    rw [List.map_cons, lookupParam, lookupParam]
    by_cases hpn : p.name = n
    · have hpm : ¬ p.name = m := fun h => hne (by rw [← h, hpn])
      rw [if_neg hpm, List.find?_cons_of_pos _ (by simpa using hpn),
        List.find?_cons_of_pos _ (by simpa using hpn)]
    · by_cases hpm : p.name = m
      · rw [if_pos hpm, List.find?_cons_of_neg _ (by simpa using hpn),
          List.find?_cons_of_neg _ (by simpa using hpn)]
        exact ih
      · rw [if_neg hpm, List.find?_cons_of_neg _ (by simpa using hpn),
          List.find?_cons_of_neg _ (by simpa using hpn)]
        exact ih

theorem lookupParam_emaUpdateOne (decay : ℚ) (reg : List String)
    (ps : List ParamEntry) (op : ParamEntry) (n : String)
    (hn : op.name ≠ n ∨ op.name ∉ reg) :
    lookupParam (emaUpdateOne decay reg ps op) n = lookupParam ps n := by
  rw [emaUpdateOne]
  by_cases hmem : op.name ∈ reg
  · rw [if_pos hmem]
    exact lookupParam_map_update ps op.name n
      (fun v => updateParamValue decay v op.value) (hn.resolve_right fun h => h hmem)
  · rw [if_neg hmem]

theorem lookupParam_foldl_invariant (decay : ℚ) (reg : List String) (n : String) :
    ∀ (ops ps : List ParamEntry),
      (∀ op ∈ ops, op.name ≠ n ∨ op.name ∉ reg) →
      lookupParam (ops.foldl (emaUpdateOne decay reg) ps) n = lookupParam ps n := by
  intro ops
  induction ops with
  | nil => intro ps _; rfl
  | cons op ops ih =>
    intro ps hh
    rw [List.foldl_cons, ih _ fun o ho => hh o (List.mem_cons_of_mem _ ho),
      lookupParam_emaUpdateOne _ _ _ _ _ (hh op (List.mem_cons_self ..))]

/-- C10: `update_params(other_model)` only writes through the shadow: it
never mutates any parameter of `other_model`, and every parameter of
`self.model` whose name was not registered at construction (no
`requires_grad`) or is absent from `other_model`'s named parameters keeps
its value. -/
theorem ema_update_params_frame (decay : ℚ) (selfParams otherParams : List ParamEntry) :
    (ema_update_params decay selfParams otherParams).2 = otherParams ∧
    ∀ n : String,
      n ∉ emaRegisteredNames selfParams ∨ n ∉ otherParams.map ParamEntry.name →
      lookupParam (ema_update_params decay selfParams otherParams).1 n =
        lookupParam selfParams n := by
  refine ⟨rfl, fun n hn => ?_⟩
  apply lookupParam_foldl_invariant
  intro op hop
  rcases hn with hn | hn
  · by_cases h : op.name = n
    · exact Or.inr (by rw [h]; exact hn)
    · exact Or.inl h
  · exact Or.inl fun h => hn (List.mem_map.mpr ⟨op, hop, h⟩)

/-- Witness for C10: a model with a registered parameter `w` and an
unregistered (`requires_grad = false`) parameter `b`; the other model
carries `w` and an extra parameter `c`.  The other model's parameters are
untouched and `b` keeps its value. -/
theorem ema_update_params_frame_witness :
    (ema_update_params (1/2 : ℚ) [⟨"w", 10, true⟩, ⟨"b", 4, false⟩]
        [⟨"w", 2, true⟩, ⟨"c", 7, true⟩]).2 = [⟨"w", 2, true⟩, ⟨"c", 7, true⟩] ∧
    lookupParam (ema_update_params (1/2 : ℚ) [⟨"w", 10, true⟩, ⟨"b", 4, false⟩]
        [⟨"w", 2, true⟩, ⟨"c", 7, true⟩]).1 "b" =
      lookupParam [⟨"w", 10, true⟩, ⟨"b", 4, false⟩] "b" := by
  obtain ⟨h1, h2⟩ := ema_update_params_frame (1/2 : ℚ)
    [⟨"w", 10, true⟩, ⟨"b", 4, false⟩] [⟨"w", 2, true⟩, ⟨"c", 7, true⟩]
  exact ⟨h1, h2 "b" (Or.inl (by decide))⟩

/-! ## C5: batch permutation equivariance -/

theorem map_getD_range {α : Type} (l : List α) (d : α) :
    (List.range l.length).map (fun i => l.getD i d) = l := by
  apply List.ext_getElem
  · simp
  · intro i h1 h2
    rw [List.getElem_map, List.getElem_range, List.getD_eq_getElem _ _ h2]

theorem map_getD_range_comp {α β : Type} (l : List α) (d : α) (g : α → β) :
    (List.range l.length).map (fun i => g (l.getD i d)) = l.map g := by
  conv_rhs => rw [← map_getD_range l d]
  rw [List.map_map]
  rfl

/-- C5: `upsample_to_repetitions` is permutation-equivariant over the
batch axis: for every permutation of the batch row indices, upsampling
the row-permuted sequence and repeats batches yields exactly the same row
permutation of the output obtained on the unpermuted inputs. -/
theorem upsample_perm_equivariant (seq : List (List (List Int)))
    (repeats : List (List Int)) (out : List (List (List Int))) (perm : List Nat)
    (hperm : perm.Perm (List.range seq.length))
    (h : upsample_to_repetitions seq repeats = some out) :
    upsample_to_repetitions (reindex perm seq []) (reindex perm repeats []) =
      some (reindex perm out []) := by
  obtain ⟨⟨hblen, hseq, hrep⟩, hout⟩ := upsample_eq_some seq repeats out h
  have hne : seq ≠ [] := by
    rintro rfl
    simp [upsample_to_repetitions] at h
  have hpb : ∀ i ∈ perm, i < seq.length := fun i hi =>
    List.mem_range.mp (hperm.mem_iff.mp hi)
  have hplen : perm.length = seq.length := by
    rw [hperm.length_eq, List.length_range]
  have hpne : perm ≠ [] := by
    intro h0
    rw [h0] at hplen
    cases seq with
    | nil => exact hne rfl
    | cons a l => simp at hplen
  have hne' : reindex perm seq [] ≠ [] := by
    rw [reindex]
    simpa using hpne
  have ha : ((reindex perm seq []).headD []).length = (seq.headD []).length := by
    cases hpc : perm with
    | nil => exact absurd hpc hpne
    | cons p₀ ps =>
      have hp₀ : p₀ < seq.length := hpb p₀ (by rw [hpc]; exact List.mem_cons_self ..)
      have hmem : seq.getD p₀ [] ∈ seq := by
        rw [List.getD_eq_getElem _ _ hp₀]; exact List.getElem_mem hp₀
      rw [reindex, List.map_cons, List.headD_cons]
      exact (hseq _ hmem).1
  have hfd : featDim (reindex perm seq []) = featDim seq := by
    cases hpc : perm with
    | nil => exact absurd hpc hpne
    | cons p₀ ps =>
      have hp₀ : p₀ < seq.length := hpb p₀ (by rw [hpc]; exact List.mem_cons_self ..)
      have hmem : seq.getD p₀ [] ∈ seq := by
        rw [List.getD_eq_getElem _ _ hp₀]; exact List.getElem_mem hp₀
      show (((reindex (p₀ :: ps) seq []).headD []).headD []).length = _
      rw [reindex, List.map_cons, List.headD_cons]
      cases hrow : seq.getD p₀ [] with
      | nil =>
        obtain ⟨hl, _⟩ := hseq _ hmem
        rw [hrow] at hl
        have hh : seq.headD [] = [] :=
          List.eq_nil_of_length_eq_zero (by simpa using hl.symm)
        rw [featDim, hh]
      | cons f fs =>
        obtain ⟨_, hf⟩ := hseq _ hmem
        have := hf f (by rw [hrow]; exact List.mem_cons_self ..)
        simpa using this
  have hv' : upsampleValid (reindex perm seq []) (reindex perm repeats []) := by
    refine ⟨?_, ?_, ?_⟩
    · rw [reindex, reindex, List.length_map, List.length_map]
    · intro row hrow
      obtain ⟨i, hi, hir⟩ := List.mem_map.mp hrow
      have hiB : i < seq.length := hpb i hi
      have hmem : seq.getD i [] ∈ seq := by
        rw [List.getD_eq_getElem _ _ hiB]; exact List.getElem_mem hiB
      obtain ⟨hl, hf⟩ := hseq _ hmem
      constructor
      · rw [← hir, ha]
        exact hl
      · intro f hfm
        rw [hfd]
        exact hf f (by rw [← hir] at hfm; exact hfm)
    · intro row hrow
      obtain ⟨i, hi, hir⟩ := List.mem_map.mp hrow
      have hiB : i < seq.length := hpb i hi
      have hiR : i < repeats.length := by omega
      have hmem : repeats.getD i [] ∈ repeats := by
        rw [List.getD_eq_getElem _ _ hiR]; exact List.getElem_mem hiR
      obtain ⟨hl, hnn⟩ := hrep _ hmem
      constructor
      · rw [← hir, ha]
        exact hl
      · rw [← hir]
        exact hnn
  have hmax : maxRepeatedLen (reindex perm repeats []) = maxRepeatedLen repeats := by
    have hmap : ((reindex perm repeats []).map List.sum).map Int.toNat
        = perm.map fun i => ((repeats.getD i []).sum).toNat := by
      rw [reindex, List.map_map, List.map_map]
      rfl
    have hrange : (List.range repeats.length).map
        (fun i => ((repeats.getD i []).sum).toNat)
        = (repeats.map List.sum).map Int.toNat := by
      rw [map_getD_range_comp repeats [] fun row => row.sum.toNat, List.map_map]
      rfl
    have hp : (perm.map fun i => ((repeats.getD i []).sum).toNat).Perm
        ((repeats.map List.sum).map Int.toNat) := by
      rw [← hrange]
      apply List.Perm.map
      rw [hblen]
      exact hperm
    rw [maxRepeatedLen, maxRepeatedLen, hmap]
    exact hp.foldl_eq 0
  rw [upsample_eq_of_valid _ _ hne' hv', ha, hfd, hmax]
  congr 1
  rw [reindex, reindex, reindex, List.zipWith_map, List.zipWith_same]
  apply List.map_congr_left
  intro i hi
  have hiB : i < seq.length := hpb i hi
  have hiR : i < repeats.length := by omega
  rw [hout, getD_zipWith_of_lt _ _ _ i hiB hiR [] [] []]

/-- Witness for C5: swapping the two rows of the example batch swaps the
two output rows. -/
theorem upsample_perm_equivariant_witness :
    upsample_to_repetitions
        (reindex [1, 0] [[[5],[7],[9]], [[1],[2],[3]]] [])
        (reindex [1, 0] [[2,0,1],[0,2,2]] []) =
      some (reindex [1, 0] [[[5],[5],[9],[0]], [[2],[2],[3],[3]]] []) :=
  upsample_perm_equivariant [[[5],[7],[9]], [[1],[2],[3]]] [[2,0,1],[0,2,2]]
    [[[5],[5],[9],[0]], [[2],[2],[3],[3]]] [1, 0] (by decide) (by decide)

end Morgana
